import Mathlib

/-!
# The game loop of `main.c`

A shallow embedding of `C files/main.c`: the board dump `outputBoard` and the
round loop of `main`.  The engine functions that `main` calls
(`initializeChessBoard`, `fillBoard`, `checkIfValidPosition`, `highlightAttack`,
`movePiece`, `switchTurn`) and the constants it uses are declared in
`chessUtility.h`; they enter the development as the fields of `ChessUtility`,
so every theorem about `main` holds for whatever engine is linked in.

Standard input is a list of `scanf` results: `some (a, b)` when the call
`scanf("%d %d", ..)` returned 2, `none` when it returned anything else; the
end of the list is end of input, where `scanf` returns `EOF`.

Every call that `main` makes is recorded, with its arguments and in program
order, as an `Event`; the events of one iteration of the `while` loop form a
`Round`.
-/

namespace Chess

/-! ## Data model -/

/-- Modelled from the spec: `BOARD_SIZE` is a macro of `chessUtility.h`, which
is not part of the sources; §3 fixes the board at 8×8. -/
abbrev BOARD_SIZE : Nat := 8

/-- Modelled from the spec: the struct is declared in `chessUtility.h`;
`main.c` prints `type` and `side` with `%c` and `highlight` with `%d`, and §3
makes the highlight flag a boolean. -/
structure ChessBoardType where
  type : Char
  side : Char
  highlight : Bool
deriving DecidableEq

/-- The board `ChessBoardType **board`: `BOARD_SIZE` rows of `BOARD_SIZE`
cells, allocated once and never resized. -/
abbrev Board := Fin BOARD_SIZE → Fin BOARD_SIZE → ChessBoardType

/-- Modelled from the spec: `SELECTING` and `MOVING` are constants of
`chessUtility.h`; §3 gives the phase as the enumeration {Selecting, Moving}. -/
inductive GamePhase where
  | SELECTING
  | MOVING
deriving DecidableEq

/-- Modelled from the spec: `HIGHLIGHT` and `DEHIGHLIGHT` are constants of
`chessUtility.h`; §4.3 gives the mode as one of {Highlight, Dehighlight}. -/
inductive HighlightMode where
  | HIGHLIGHT
  | DEHIGHLIGHT
deriving DecidableEq

/-- The declarations of `chessUtility.h` that `main` uses.  The functions that
receive `board` may write to its cells, so they return the board they leave
(the validator excepted: §4.2 gives it no side effect on the board);
`checkIfValidPosition` receives `&currentState`, so it returns, next to its
verdict, the phase it leaves in `currentState`. -/
structure ChessUtility where
  PAWN : Char
  initializeChessBoard : Int → Int → Board
  fillBoard : Board → Int → Int → Board
  checkIfValidPosition :
    Board → Char → Char → Int → Int → Int → Int → GamePhase → Bool → Bool × GamePhase
  highlightAttack :
    Board → Int → Int → Char → Char → HighlightMode → GamePhase → Bool → Board
  movePiece : Board → Char → Int → Int → GamePhase → Int → Int → Board
  switchTurn : Char → Char

/-- The lookup `board[row][col]` with `int` indices: defined inside the
allocated 8×8 block only; `none` stands for the out-of-bounds access. -/
def cellAt (board : Board) (row col : Int) : Option ChessBoardType :=
  if h : 0 ≤ row ∧ row < BOARD_SIZE ∧ 0 ≤ col ∧ col < BOARD_SIZE then
    some (board ⟨row.toNat, by have := h.1; have := h.2.1; omega⟩
      ⟨col.toNat, by have := h.2.2.1; have := h.2.2.2; omega⟩)
  else none

/-! ## `outputBoard` -/

/-- The characters `printf("%d ", flag)` writes for a boolean flag. -/
def printHighlight (flag : Bool) : List Char :=
  if flag then ['1', ' '] else ['0', ' ']

/-- First loop nest of `outputBoard`: one text line per row, `"%c "` of the
piece type of each cell, then a newline. -/
def outputTypes (board : Board) : List Char :=
  (List.finRange BOARD_SIZE).flatMap fun rowIndex =>
    ((List.finRange BOARD_SIZE).flatMap fun colIndex =>
      [(board rowIndex colIndex).type, ' ']) ++ ['\n']

/-- Second loop nest of `outputBoard`: `"%c "` of the side of each cell. -/
def outputSides (board : Board) : List Char :=
  (List.finRange BOARD_SIZE).flatMap fun rowIndex =>
    ((List.finRange BOARD_SIZE).flatMap fun colIndex =>
      [(board rowIndex colIndex).side, ' ']) ++ ['\n']

/-- Third loop nest of `outputBoard`: `"%d "` of the highlight flag of each
cell. -/
def outputHighlights (board : Board) : List Char :=
  (List.finRange BOARD_SIZE).flatMap fun rowIndex =>
    ((List.finRange BOARD_SIZE).flatMap fun colIndex =>
      printHighlight (board rowIndex colIndex).highlight) ++ ['\n']

/-- The function `outputBoard`: the board memory after the call (the function
writes to no cell) and the characters written to standard output. -/
def outputBoard (board : Board) : Board × List Char :=
  (board, outputTypes board ++ outputSides board ++ outputHighlights board)

/-- A line of text as §6 of the specification describes it: tokens, each one
followed by a space, and a newline at the end. -/
def renderLine (tokens : List (List Char)) : List Char :=
  (tokens.flatMap fun token => token ++ [' ']) ++ ['\n']

/-- The token at a given position of a given line. -/
def tokenAt (lines : List (List (List Char))) (line position : Nat) : Option (List Char) :=
  (lines.get? line).bind fun tokens => tokens.get? position

/-! ## Events -/

/-- One call of `checkIfValidPosition`: its arguments, the phase found in
`*currentState`, the value returned and the phase left in `*currentState`. -/
structure ValidatorCall where
  board : Board
  type : Char
  side : Char
  start_row : Int
  start_col : Int
  end_row : Int
  end_col : Int
  state : GamePhase
  initialPawn : Bool
  result : Bool
  stateOut : GamePhase

/-- One call of `highlightAttack` with its arguments. -/
structure HighlightCall where
  board : Board
  row : Int
  col : Int
  type : Char
  side : Char
  mode : HighlightMode
  state : GamePhase
  initialPawn : Bool

/-- One call of `movePiece` with its arguments. -/
structure MoveCall where
  board : Board
  side : Char
  end_row : Int
  end_col : Int
  state : GamePhase
  start_row : Int
  start_col : Int

/-- What `main` does that is visible from outside or to the engine, in program
order. -/
inductive Event where
  | printf (text : String)
  | scanf (result : Option (Int × Int))
  | outputBoard (board : Board)
  | checkIfValidPosition (call : ValidatorCall)
  | highlightAttack (call : HighlightCall)
  | movePiece (call : MoveCall)
  | switchTurn (side : Char)
  | assignState (phase : GamePhase)

/-- The variables of `main` that are live at the top of the loop body.
(`start_row`, `start_col`, `end_row`, `end_col` and `currentType` are written
in every iteration before they are read; `gameRunning` is never written.) -/
structure Locals where
  board : Board
  currentTurn : Char
  initialPawn : Bool
  currentState : GamePhase

/-- How one iteration of the loop body ends: at line 155, going round again
with the given variables; at one of the two `break`s; or in the out-of-bounds
read of line 95, where the behaviour of the program is undefined. -/
inductive Control where
  | next (locals : Locals)
  | brk
  | undefined

/-- One iteration of the `while` loop: the variables it started from, what it
did, and how it ended. -/
structure Round where
  start : Locals
  events : List Event
  ctl : Control

/-! ## The loop body of `main` -/

/-- Lines 98–108: the assignments to `initialPawn`.  Both branches store
`true`; there is no branch that stores `false`. -/
def updateInitialPawn (U : ChessUtility) (currentTurn currentType : Char)
    (start_row : Int) (initialPawn : Bool) : Bool :=
  if currentTurn = 'P' ∧ currentType = U.PAWN ∧ start_row = 6 then true
  else if currentTurn = 'O' ∧ currentType = U.PAWN ∧ start_row = 1 then true
  else initialPawn

/-- The events of lines 86–88 and 132–134, after a failed read. -/
def invalidInput : List Event :=
  [Event.scanf none, Event.printf "Invalid input, exiting loop.\n"]

/-- One iteration of the loop body, lines 80–155.  `origin` is what the
`scanf` of line 83 yields and `dest` what the `scanf` of line 129 yields, if
control gets there. -/
def playRound (U : ChessUtility) (s : Locals) (origin dest : Option (Int × Int)) : Round :=
  match origin with
  | none => ⟨s, Event.printf "Enter initial move: " :: invalidInput, Control.brk⟩
  | some (start_row, start_col) =>
    let read1 : List Event :=
      [Event.printf "Enter initial move: ",
       Event.scanf (some (start_row, start_col)),
       Event.printf ("Received move: " ++ toString start_row ++ " "
         ++ toString start_col ++ "\n")]
    match cellAt s.board start_row start_col with
    | none => ⟨s, read1, Control.undefined⟩
    | some cell =>
      let currentType := cell.type
      let initialPawn := updateInitialPawn U s.currentTurn currentType start_row s.initialPawn
      let v1 := U.checkIfValidPosition s.board currentType s.currentTurn
        start_row start_col start_row start_col s.currentState initialPawn
      let call1 : ValidatorCall :=
        ⟨s.board, currentType, s.currentTurn, start_row, start_col, start_row, start_col,
          s.currentState, initialPawn, v1.1, v1.2⟩
      let currentState := v1.2
      let highlight : HighlightCall :=
        ⟨s.board, start_row, start_col, currentType, s.currentTurn,
          HighlightMode.HIGHLIGHT, currentState, initialPawn⟩
      let board1 :=
        if v1.1 then
          U.highlightAttack s.board start_row start_col currentType s.currentTurn
            HighlightMode.HIGHLIGHT currentState initialPawn
        else s.board
      let select : List Event :=
        read1 ++ [Event.checkIfValidPosition call1]
          ++ (if v1.1 then
                [Event.printf "Highlighting potential moves.\n",
                 Event.highlightAttack highlight,
                 Event.printf "Outputting board with highlights.\n",
                 Event.outputBoard board1]
              else [])
          ++ [Event.printf "Enter  move:\n "]
      match dest with
      | none => ⟨s, select ++ invalidInput, Control.brk⟩
      | some (end_row, end_col) =>
        let dehighlight : HighlightCall :=
          ⟨board1, start_row, start_col, currentType, s.currentTurn,
            HighlightMode.DEHIGHLIGHT, currentState, initialPawn⟩
        let board2 :=
          U.highlightAttack board1 start_row start_col currentType s.currentTurn
            HighlightMode.DEHIGHLIGHT currentState initialPawn
        let v2 := U.checkIfValidPosition board2 currentType s.currentTurn
          start_row start_col end_row end_col GamePhase.MOVING initialPawn
        let call2 : ValidatorCall :=
          ⟨board2, currentType, s.currentTurn, start_row, start_col, end_row, end_col,
            GamePhase.MOVING, initialPawn, v2.1, v2.2⟩
        let move : MoveCall :=
          ⟨board2, s.currentTurn, end_row, end_col, v2.2, start_row, start_col⟩
        let board3 :=
          if v2.1 then
            U.movePiece board2 s.currentTurn end_row end_col v2.2 start_row start_col
          else board2
        let currentTurn := if v2.1 then U.switchTurn s.currentTurn else s.currentTurn
        ⟨s,
         select
           ++ [Event.scanf (some (end_row, end_col)),
               Event.printf "Dehighlighting potential moves.\n",
               Event.highlightAttack dehighlight,
               Event.assignState GamePhase.MOVING,
               Event.checkIfValidPosition call2]
           ++ (if v2.1 then
                 [Event.movePiece move,
                  Event.printf "Outputting board after move.\n",
                  Event.outputBoard board3,
                  Event.switchTurn s.currentTurn]
               else [])
           ++ [Event.assignState GamePhase.SELECTING],
         Control.next ⟨board3, currentTurn, initialPawn, GamePhase.SELECTING⟩⟩

/-- The `while (gameRunning)` loop: the rounds played from the variables `s`
on the given input.  A round that ends in `Control.next` has consumed two
reads; every other round is the last one. -/
def mainLoop (U : ChessUtility) : Locals → List (Option (Int × Int)) → List Round
  | s, [] => [playRound U s none none]
  | s, [origin] => [playRound U s origin none]
  | s, origin :: dest :: rest =>
    match (playRound U s origin dest).ctl with
    | Control.next s1 => playRound U s origin dest :: mainLoop U s1 rest
    | _ => [playRound U s origin dest]

/-- The variables of `main` when the loop is entered (lines 59–75). -/
def initialLocals (U : ChessUtility) : Locals :=
  ⟨U.fillBoard (U.initializeChessBoard BOARD_SIZE BOARD_SIZE) BOARD_SIZE BOARD_SIZE,
   'P', false, GamePhase.SELECTING⟩

/-- A run of `main`: the board dump of line 73, then the rounds of the loop. -/
structure Run where
  prologue : List Event
  rounds : List Round

/-- The function `main` on the given standard input. -/
def main (U : ChessUtility) (input : List (Option (Int × Int))) : Run :=
  ⟨[Event.outputBoard (initialLocals U).board], mainLoop U (initialLocals U) input⟩

/-- Everything a run does, in program order. -/
def Run.trace (run : Run) : List Event :=
  run.prologue ++ run.rounds.flatMap Round.events

/-! ## Reading a round -/

/-- The results of the `scanf` calls of a list of events, in order. -/
def readsOf : List Event → List (Option (Int × Int))
  | [] => []
  | Event.scanf result :: rest => result :: readsOf rest
  | _ :: rest => readsOf rest

/-- The calls of `checkIfValidPosition` in a list of events, in order. -/
def validatorCallsOf : List Event → List ValidatorCall
  | [] => []
  | Event.checkIfValidPosition call :: rest => call :: validatorCallsOf rest
  | _ :: rest => validatorCallsOf rest

/-- The calls of `highlightAttack` in a list of events, in order. -/
def highlightCallsOf : List Event → List HighlightCall
  | [] => []
  | Event.highlightAttack call :: rest => call :: highlightCallsOf rest
  | _ :: rest => highlightCallsOf rest

/-- The calls of `movePiece` in a list of events, in order. -/
def moveCallsOf : List Event → List MoveCall
  | [] => []
  | Event.movePiece call :: rest => call :: moveCallsOf rest
  | _ :: rest => moveCallsOf rest

/-- The arguments of the calls of `switchTurn` in a list of events, in order. -/
def switchCallsOf : List Event → List Char
  | [] => []
  | Event.switchTurn side :: rest => side :: switchCallsOf rest
  | _ :: rest => switchCallsOf rest

/-- The values assigned to `currentState` in a list of events, in order. -/
def assignmentsOf : List Event → List GamePhase
  | [] => []
  | Event.assignState phase :: rest => phase :: assignmentsOf rest
  | _ :: rest => assignmentsOf rest

/-- The coordinate reads of a round. -/
def Round.reads (r : Round) : List (Option (Int × Int)) := readsOf r.events

/-- The validator calls of a round. -/
def Round.validatorCalls (r : Round) : List ValidatorCall := validatorCallsOf r.events

/-- The highlighter calls of a round. -/
def Round.highlightCalls (r : Round) : List HighlightCall := highlightCallsOf r.events

/-- The executor calls of a round. -/
def Round.moveCalls (r : Round) : List MoveCall := moveCallsOf r.events

/-- The turn-manager calls of a round. -/
def Round.switchCalls (r : Round) : List Char := switchCallsOf r.events

/-- The value `checkIfValidPosition` returns on the arguments of a recorded
call. -/
def ValidatorCall.verdict (U : ChessUtility) (c : ValidatorCall) : Bool :=
  (U.checkIfValidPosition c.board c.type c.side c.start_row c.start_col
    c.end_row c.end_col c.state c.initialPawn).1

/-- The `initialPawn` argument of every validator call and every highlighter
call in a list of events, in order. -/
def flagsOf : List Event → List Bool
  | [] => []
  | Event.checkIfValidPosition call :: rest => call.initialPawn :: flagsOf rest
  | Event.highlightAttack call :: rest => call.initialPawn :: flagsOf rest
  | _ :: rest => flagsOf rest

/-- The `initialPawn` flags a round passes to the validator and the
highlighter. -/
def Round.flags (r : Round) : List Bool := flagsOf r.events

/-- The flag as §3 of the specification words it: the piece about to act is a
pawn standing on the home rank of the active side, row 6 for side `P` and
row 1 for side `O`. -/
def homeRankPawn (U : ChessUtility) (currentTurn currentType : Char) (start_row : Int) : Bool :=
  currentType = U.PAWN ∧
    ((currentTurn = 'P' ∧ start_row = 6) ∨ (currentTurn = 'O' ∧ start_row = 1))

/-- The origin read in this round lies on the board and holds a pawn on the
home rank of the side to move. -/
def Round.selectsHomeRankPawn (U : ChessUtility) (r : Round) : Bool :=
  match r.reads.head? with
  | some (some (start_row, start_col)) =>
    match cellAt r.start.board start_row start_col with
    | some cell => homeRankPawn U r.start.currentTurn cell.type start_row
    | none => false
  | _ => false

/-! ## An engine to run the loop on

The theorems below hold for every `ChessUtility`.  To exhibit runs, the
following engine is used. -/

/-- Modelled from the spec: `fillBoard` is not part of the sources; §4.1 has it
write the standard starting layout, and `main.c` puts the pawns of side `P` on
row 6 and those of side `O` on row 1.  The piece letters and the letter `X`
of an empty cell are placeholders. -/
def standardBoard : Board := fun row col =>
  let backRank : Char := ['R', 'N', 'B', 'Q', 'K', 'B', 'N', 'R'].getD col.val 'X'
  if row.val = 0 then ⟨backRank, 'O', false⟩
  else if row.val = 1 then ⟨'P', 'O', false⟩
  else if row.val = 6 then ⟨'P', 'P', false⟩
  else if row.val = 7 then ⟨backRank, 'P', false⟩
  else ⟨'X', 'X', false⟩

/-- Modelled from the spec: `checkIfValidPosition` is not part of the sources.
Of §4.2 this validator has the universal constraints only: both squares on the
board, an empty origin refused, the own square accepted in the selecting
phase only, no capture of a piece of the own side.  The per-piece geometry is
left out.  It leaves the phase as it found it. -/
def demoValid (board : Board) (type side : Char) (start_row start_col end_row end_col : Int)
    (phase : GamePhase) (_initialPawn : Bool) : Bool × GamePhase :=
  (match cellAt board start_row start_col, cellAt board end_row end_col with
   | some _, some target =>
     type != 'X' &&
       (if end_row = start_row ∧ end_col = start_col then phase == GamePhase.SELECTING
        else target.side != side)
   | _, _ => false,
   phase)

/-- Modelled from the spec: `highlightAttack` is not part of the sources; §4.3:
every square the validator approves from the origin gets its highlight flag
set or cleared according to the mode, nothing else is touched. -/
def demoHighlight (board : Board) (row col : Int) (type side : Char) (mode : HighlightMode)
    (phase : GamePhase) (initialPawn : Bool) : Board := fun r c =>
  if (demoValid board type side row col r.val c.val phase initialPawn).1 then
    ⟨(board r c).type, (board r c).side, mode == HighlightMode.HIGHLIGHT⟩
  else board r c

/-- Modelled from the spec: `movePiece` is not part of the sources; §4.4: the
type and side of the origin cell are copied onto the destination cell and the
origin cell is cleared. -/
def demoMove (board : Board) (_side : Char) (end_row end_col : Int) (_phase : GamePhase)
    (start_row start_col : Int) : Board :=
  match cellAt board start_row start_col, cellAt board end_row end_col with
  | some piece, some _ => fun r c =>
    if (r.val : Int) = end_row ∧ (c.val : Int) = end_col then
      ⟨piece.type, piece.side, (board r c).highlight⟩
    else if (r.val : Int) = start_row ∧ (c.val : Int) = start_col then
      ⟨'X', 'X', (board r c).highlight⟩
    else board r c
  | _, _ => board

/-- Modelled from the spec: `switchTurn` is not part of the sources; §4.5: the
other one of the two sides. -/
def demoSwitch (side : Char) : Char :=
  if side = 'P' then 'O' else 'P'

/-- The engine of the runs exhibited below. -/
def demoUtility : ChessUtility where
  PAWN := 'P'
  initializeChessBoard := fun _ _ _ _ => ⟨'X', 'X', false⟩
  fillBoard := fun _ _ _ => standardBoard
  checkIfValidPosition := demoValid
  highlightAttack := demoHighlight
  movePiece := demoMove
  switchTurn := demoSwitch

/-- Modelled from the spec: §4.3, the highlighter "does not touch pieceType or
side"; of this the piece type is what `main` relies on. -/
def HighlighterKeepsTypes (U : ChessUtility) : Prop :=
  ∀ (board : Board) (row col : Int) (type side : Char) (mode : HighlightMode)
    (phase : GamePhase) (initialPawn : Bool) (r c : Fin BOARD_SIZE),
    ((U.highlightAttack board row col type side mode phase initialPawn) r c).type
      = (board r c).type

/-- Modelled from the spec: §2 and §4.2 make the validator a pure predicate
with the phase as an input, so the call leaves in `currentState` the phase it
found there. -/
def ValidatorKeepsPhase (U : ChessUtility) : Prop :=
  ∀ (board : Board) (type side : Char) (start_row start_col end_row end_col : Int)
    (phase : GamePhase) (initialPawn : Bool),
    (U.checkIfValidPosition board type side start_row start_col end_row end_col
      phase initialPawn).2 = phase

/-- C3 as the claim words it: in every validator call the type and the side
passed are those stored in the origin cell of the board passed. -/
def ArgumentsFromOriginCell (run : Run) : Prop :=
  ∀ r ∈ run.rounds, ∀ c ∈ r.validatorCalls,
    ∃ cell, cellAt c.board c.start_row c.start_col = some cell ∧
      c.type = cell.type ∧ c.side = cell.side

/-- The input of the run exhibited below: `6 0`, then `5 0`. -/
def openingInput : List (Option (Int × Int)) := [some (6, 0), some (5, 0)]

/-- The first round of the engine above on the opening `6 0` / `5 0`: the
pawn of side `P` on (6, 0) advances one square. -/
def openingRound : Round :=
  playRound demoUtility (initialLocals demoUtility) (some (6, 0)) (some (5, 0))

/-- The board a recorded call leaves behind, for the two engine functions
that write to the board. -/
def Event.boardAfter (U : ChessUtility) : Event → Option Board
  | Event.highlightAttack c =>
    some (U.highlightAttack c.board c.row c.col c.type c.side c.mode c.state c.initialPawn)
  | Event.movePiece c =>
    some (U.movePiece c.board c.side c.end_row c.end_col c.state c.start_row c.start_col)
  | _ => none

/-- The same, leaving out the highlighter calls in `DEHIGHLIGHT` mode. -/
def Event.boardAfterShown (U : ChessUtility) : Event → Option Board
  | Event.highlightAttack c =>
    if c.mode = HighlightMode.HIGHLIGHT then
      some (U.highlightAttack c.board c.row c.col c.type c.side c.mode c.state c.initialPawn)
    else none
  | Event.movePiece c =>
    some (U.movePiece c.board c.side c.end_row c.end_col c.state c.start_row c.start_col)
  | _ => none

/-- In the events that follow, `outputBoard` is called on `board` before the
next coordinate read. -/
def dumpedBeforeNextRead (board : Board) : List Event → Prop
  | [] => False
  | Event.outputBoard shown :: rest => shown = board ∨ dumpedBeforeNextRead board rest
  | Event.scanf _ :: _ => False
  | _ :: rest => dumpedBeforeNextRead board rest

/-- Every event that leaves a board according to `after` is followed by the
dump of that board before the next coordinate read. -/
def everyStepDumped (after : Event → Option Board) : List Event → Prop
  | [] => True
  | e :: rest =>
    (∀ board, after e = some board → dumpedBeforeNextRead board rest) ∧
      everyStepDumped after rest

/-- C8 as the claim words it: the run starts with the dump of the populated
board, and every call of `highlightAttack` (in either mode) and of `movePiece`
is followed by the dump of the board it leaves before the next read. -/
def DumpAfterEveryBoardStep (U : ChessUtility) (run : Run) : Prop :=
  run.trace.head? = some (Event.outputBoard (initialLocals U).board) ∧
    everyStepDumped (Event.boardAfter U) run.trace

/-- The input of the second run exhibited below: the empty square `3 3` is
selected, then `4 4` is given as destination. -/
def emptySquareInput : List (Option (Int × Int)) := [some (3, 3), some (4, 4)]

/-- C6 as the claim words it: a round is the last one of the run exactly when
one of its coordinate reads failed, and the failed read is followed by the
message only. -/
def EndsOnlyOnFailedRead (run : Run) : Prop :=
  ∀ k r, run.rounds.get? k = some r →
    (run.rounds.length = k + 1 ↔ none ∈ r.reads) ∧
    (none ∈ r.reads → ∃ pre, r.events = pre ++ invalidInput ∧ none ∉ readsOf pre)

/-- The input of the third run exhibited below: the origin `8 0`, one row below
the board. -/
def offBoardInput : List (Option (Int × Int)) := [some (8, 0)]

/-! ## Lemmas on the loop -/

theorem playRound_start (U : ChessUtility) (s : Locals) (origin dest : Option (Int × Int)) :
    (playRound U s origin dest).start = s := by
  unfold playRound
  cases origin with
  | none => rfl
  | some o =>
    obtain ⟨sr, sc⟩ := o
    simp only
    cases cellAt s.board sr sc with
    | none => rfl
    | some cell =>
      cases dest with
      | none => rfl
      | some d => rfl

theorem mainLoop_nil (U : ChessUtility) (s : Locals) :
    mainLoop U s [] = [playRound U s none none] := by
  rw [mainLoop]

theorem mainLoop_single (U : ChessUtility) (s : Locals) (origin : Option (Int × Int)) :
    mainLoop U s [origin] = [playRound U s origin none] := by
  rw [mainLoop]

theorem mainLoop_next (U : ChessUtility) (s s1 : Locals) (origin dest : Option (Int × Int))
    (rest : List (Option (Int × Int)))
    (h : (playRound U s origin dest).ctl = Control.next s1) :
    mainLoop U s (origin :: dest :: rest) = playRound U s origin dest :: mainLoop U s1 rest := by
  rw [mainLoop, h]

theorem mainLoop_stop (U : ChessUtility) (s : Locals) (origin dest : Option (Int × Int))
    (rest : List (Option (Int × Int)))
    (h : ∀ s1, (playRound U s origin dest).ctl = Control.next s1 → False) :
    mainLoop U s (origin :: dest :: rest) = [playRound U s origin dest] := by
  rw [mainLoop]
  split
  · rename_i s1 h1
    exact absurd h1 (fun h2 => h s1 h2)
  · rfl

/-- Every round of the loop is an iteration of the loop body from the
variables the round starts with. -/
theorem mem_mainLoop (U : ChessUtility) (s : Locals) (input : List (Option (Int × Int))) :
    ∀ r : Round, r ∈ mainLoop U s input →
      ∃ origin dest, r = playRound U r.start origin dest := by
  induction s, input using mainLoop.induct U with
  | case1 s =>
    intro r hr
    rw [mainLoop_nil, List.mem_singleton] at hr
    exact ⟨none, none, by rw [hr, playRound_start]⟩
  | case2 s origin =>
    intro r hr
    rw [mainLoop_single, List.mem_singleton] at hr
    exact ⟨origin, none, by rw [hr, playRound_start]⟩
  | case3 s origin dest rest s1 h ih =>
    intro r hr
    rw [mainLoop_next U s s1 origin dest rest h, List.mem_cons] at hr
    rcases hr with hr | hr
    · exact ⟨origin, dest, by rw [hr, playRound_start]⟩
    · exact ih r hr
  | case4 s origin dest rest h =>
    intro r hr
    rw [mainLoop_stop U s origin dest rest h, List.mem_singleton] at hr
    exact ⟨origin, dest, by rw [hr, playRound_start]⟩

/-- The variables a round hands to the next one carry the phase `SELECTING`
(line 155). -/
theorem playRound_next_state (U : ChessUtility) (s s1 : Locals)
    (origin dest : Option (Int × Int))
    (h : (playRound U s origin dest).ctl = Control.next s1) :
    s1.currentState = GamePhase.SELECTING := by
  unfold playRound at h
  cases origin with
  | none => simp at h
  | some o =>
    obtain ⟨sr, sc⟩ := o
    simp only at h
    cases hc : cellAt s.board sr sc with
    | none => simp [hc] at h
    | some cell =>
      cases dest with
      | none => simp [hc] at h
      | some d =>
        simp only [hc, Control.next.injEq] at h
        rw [← h]

/-- Every round of the loop starts in the phase the loop was entered with or
in `SELECTING`. -/
theorem mainLoop_start_state (U : ChessUtility) (s : Locals) (input : List (Option (Int × Int)))
    (hs : s.currentState = GamePhase.SELECTING) :
    ∀ r : Round, r ∈ mainLoop U s input → r.start.currentState = GamePhase.SELECTING := by
  induction s, input using mainLoop.induct U with
  | case1 s =>
    intro r hr
    rw [mainLoop_nil, List.mem_singleton] at hr
    rw [hr, playRound_start]; exact hs
  | case2 s origin =>
    intro r hr
    rw [mainLoop_single, List.mem_singleton] at hr
    rw [hr, playRound_start]; exact hs
  | case3 s origin dest rest s1 h ih =>
    intro r hr
    rw [mainLoop_next U s s1 origin dest rest h, List.mem_cons] at hr
    rcases hr with hr | hr
    · rw [hr, playRound_start]; exact hs
    · exact ih (playRound_next_state U s s1 origin dest h) r hr
  | case4 s origin dest rest h =>
    intro r hr
    rw [mainLoop_stop U s origin dest rest h, List.mem_singleton] at hr
    rw [hr, playRound_start]; exact hs

/-- A round with two successful reads went through the whole loop body: both
`scanf` calls yielded the pairs read and the origin lookup was in bounds. -/
theorem playRound_of_two_reads (U : ChessUtility) (s : Locals)
    (o d : Option (Int × Int)) (origin dest : Int × Int)
    (h : (playRound U s o d).reads = [some origin, some dest]) :
    o = some origin ∧ d = some dest ∧
      ∃ cell, cellAt s.board origin.1 origin.2 = some cell := by
  unfold playRound at h
  cases o with
  | none => simp [Round.reads, readsOf, invalidInput] at h
  | some o =>
    obtain ⟨sr, sc⟩ := o
    simp only at h
    cases hc : cellAt s.board sr sc with
    | none => simp [hc, Round.reads, readsOf] at h
    | some cell =>
      cases d with
      | none =>
        simp only [hc] at h
        split_ifs at h <;> simp [Round.reads, readsOf, invalidInput] at h
      | some d =>
        simp only [hc] at h
        split_ifs at h <;> simp [Round.reads, readsOf] at h <;>
          (obtain ⟨h1, h2⟩ := h; subst h1; subst h2; exact ⟨rfl, rfl, cell, hc⟩)

/-- The reads of a round that goes through the whole loop body. -/
theorem playRound_reads_full (U : ChessUtility) (s : Locals) (sr sc er ec : Int)
    (cell : ChessBoardType) (hc : cellAt s.board sr sc = some cell) :
    (playRound U s (some (sr, sc)) (some (er, ec))).reads = [some (sr, sc), some (er, ec)] := by
  simp only [playRound, hc]
  split_ifs <;> rfl

/-- The first round of a run. -/
theorem first_round_mem (U : ChessUtility) (origin dest : Option (Int × Int))
    (rest : List (Option (Int × Int))) :
    playRound U (initialLocals U) origin dest ∈ (main U (origin :: dest :: rest)).rounds := by
  unfold main
  simp only
  rw [mainLoop]
  split <;> simp

/-! ## The `initialPawn` flag -/

/-- Lines 98–108 can only raise the flag: the new value is the old one or
the home-rank test of this round. -/
theorem updateInitialPawn_eq (U : ChessUtility) (currentTurn currentType : Char)
    (start_row : Int) (initialPawn : Bool) :
    updateInitialPawn U currentTurn currentType start_row initialPawn
      = (initialPawn || homeRankPawn U currentTurn currentType start_row) := by
  unfold updateInitialPawn homeRankPawn
  by_cases h1 : currentTurn = 'P' ∧ currentType = U.PAWN ∧ start_row = 6
  · obtain ⟨ha, hb, hc⟩ := h1
    simp [ha, hb, hc]
  · by_cases h2 : currentTurn = 'O' ∧ currentType = U.PAWN ∧ start_row = 1
    · obtain ⟨ha, hb, hc⟩ := h2
      simp [ha, hb, hc]
    · rw [if_neg h1, if_neg h2]
      have h3 : ¬ (currentType = U.PAWN ∧
          ((currentTurn = 'P' ∧ start_row = 6) ∨ (currentTurn = 'O' ∧ start_row = 1))) := by
        rintro ⟨hp, hq | hq⟩
        · exact h1 ⟨hq.1, hp, hq.2⟩
        · exact h2 ⟨hq.1, hp, hq.2⟩
      simp [h3]

/-- Every flag a round passes on, and the flag it leaves for the next round,
is the flag it started with or the home-rank test of its own origin. -/
theorem playRound_flags (U : ChessUtility) (s : Locals) (o d : Option (Int × Int)) :
    (∀ f ∈ (playRound U s o d).flags,
        f = (s.initialPawn || (playRound U s o d).selectsHomeRankPawn U)) ∧
      (∀ s1, (playRound U s o d).ctl = Control.next s1 →
        s1.initialPawn = (s.initialPawn || (playRound U s o d).selectsHomeRankPawn U)) := by
  cases o with
  | none => simp [playRound, Round.flags, flagsOf, invalidInput]
  | some o =>
    obtain ⟨sr, sc⟩ := o
    cases hc : cellAt s.board sr sc with
    | none => simp [playRound, hc, Round.flags, flagsOf]
    | some cell =>
      cases d with
      | none =>
        simp only [playRound, hc]
        split_ifs <;>
          simp [Round.flags, flagsOf, invalidInput, Round.selectsHomeRankPawn, Round.reads,
            readsOf, hc, updateInitialPawn_eq]
      | some d =>
        simp only [playRound, hc]
        split_ifs <;>
          simp [Round.flags, flagsOf, Round.selectsHomeRankPawn, Round.reads,
            readsOf, hc, updateInitialPawn_eq]

/-- The flags of a list of rounds, given the flags of its first round and of
the rounds after it. -/
theorem flags_cons (sel : Round → Bool) (ip : Bool) (r0 : Round) (tail : List Round)
    (h0 : ∀ f ∈ r0.flags, f = (ip || sel r0))
    (htail : ∀ k rk, tail.get? k = some rk → ∀ f ∈ rk.flags,
      (f = true ↔ (ip || sel r0) = true ∨
        ∃ j rj, j ≤ k ∧ tail.get? j = some rj ∧ sel rj = true)) :
    ∀ k rk, (r0 :: tail).get? k = some rk → ∀ f ∈ rk.flags,
      (f = true ↔ ip = true ∨
        ∃ j rj, j ≤ k ∧ (r0 :: tail).get? j = some rj ∧ sel rj = true) := by
  intro k rk hk f hf
  cases k with
  | zero =>
    simp only [List.get?_cons_zero, Option.some.injEq] at hk
    subst hk
    rw [h0 f hf]
    constructor
    · intro h
      rcases Bool.or_eq_true _ _ ▸ h with h | h
      · exact Or.inl h
      · exact Or.inr ⟨0, r0, le_refl _, rfl, h⟩
    · rintro (h | ⟨j, rj, hj, hget, hsel⟩)
      · simp [h]
      · have hj0 : j = 0 := by omega
        subst hj0
        simp only [List.get?_cons_zero, Option.some.injEq] at hget
        subst hget
        simp [hsel]
  | succ k =>
    simp only [List.get?_cons_succ] at hk
    rw [htail k rk hk f hf]
    constructor
    · rintro (h | ⟨j, rj, hj, hget, hsel⟩)
      · rcases Bool.or_eq_true _ _ ▸ h with h | h
        · exact Or.inl h
        · exact Or.inr ⟨0, r0, Nat.zero_le _, rfl, h⟩
      · exact Or.inr ⟨j + 1, rj, by omega, by simpa using hget, hsel⟩
    · rintro (h | ⟨j, rj, hj, hget, hsel⟩)
      · exact Or.inl (by simp [h])
      · cases j with
        | zero =>
          simp only [List.get?_cons_zero, Option.some.injEq] at hget
          subst hget
          exact Or.inl (by simp [hsel])
        | succ j =>
          simp only [List.get?_cons_succ] at hget
          exact Or.inr ⟨j, rj, by omega, hget, hsel⟩

/-- The flags passed in round `k` of the loop entered with the variables `s`:
true exactly when the loop was entered with the flag set or one of the rounds
up to `k` selected a pawn on its home rank. -/
theorem mainLoop_flags (U : ChessUtility) (s : Locals) (input : List (Option (Int × Int))) :
    ∀ k rk, (mainLoop U s input).get? k = some rk → ∀ f ∈ rk.flags,
      (f = true ↔ s.initialPawn = true ∨
        ∃ j rj, j ≤ k ∧ (mainLoop U s input).get? j = some rj ∧
          rj.selectsHomeRankPawn U = true) := by
  induction s, input using mainLoop.induct U with
  | case1 s =>
    rw [mainLoop_nil]
    exact flags_cons _ _ _ [] (playRound_flags U s none none).1 (by simp)
  | case2 s origin =>
    rw [mainLoop_single]
    exact flags_cons _ _ _ [] (playRound_flags U s origin none).1 (by simp)
  | case3 s origin dest rest s1 h ih =>
    rw [mainLoop_next U s s1 origin dest rest h]
    refine flags_cons _ _ _ _ (playRound_flags U s origin dest).1 ?_
    rw [← (playRound_flags U s origin dest).2 s1 h]
    exact ih
  | case4 s origin dest rest h =>
    rw [mainLoop_stop U s origin dest rest h]
    exact flags_cons _ _ _ [] (playRound_flags U s origin dest).1 (by simp)

/-- The home-rank test of a round whose origin lies on the board. -/
theorem selectsHomeRankPawn_playRound (U : ChessUtility) (s : Locals) (sr sc : Int)
    (d : Option (Int × Int)) (cell : ChessBoardType) (hc : cellAt s.board sr sc = some cell) :
    (playRound U s (some (sr, sc)) d).selectsHomeRankPawn U
      = homeRankPawn U s.currentTurn cell.type sr := by
  cases d <;> simp only [playRound, hc] <;> split_ifs <;>
    simp [Round.selectsHomeRankPawn, Round.reads, readsOf, invalidInput, hc]

/-- The first round played on a non-empty input. -/
theorem mainLoop_head (U : ChessUtility) (s : Locals) (origin : Option (Int × Int))
    (rest : List (Option (Int × Int))) :
    (mainLoop U s (origin :: rest)).get? 0 = some (playRound U s origin (rest.head?.getD none)) := by
  cases rest with
  | nil => rw [mainLoop_single]; rfl
  | cons dest rest =>
    rw [mainLoop]
    split <;> rfl

/-- C10: the variable initialPawn of main is monotone across rounds.  It is
false when the loop is entered; no round lowers it (the value a round hands on
is true whenever the value it started with is); the flag passed to the
validator and the highlighter in round k is true exactly when, in some round
j ≤ k, the origin selected held a pawn with active side P on row 6 or active
side O on row 1; hence once a round passes the flag as true, every later
validator and highlighter call gets it as true, whatever the side and the
piece. -/
theorem initialPawn_monotone_across_rounds (U : ChessUtility)
    (input : List (Option (Int × Int))) :
    (initialLocals U).initialPawn = false ∧
    (∀ r ∈ (main U input).rounds, ∀ s1, r.ctl = Control.next s1 →
      r.start.initialPawn = true → s1.initialPawn = true) ∧
    (∀ k rk, (main U input).rounds.get? k = some rk → ∀ f ∈ rk.flags,
      (f = true ↔ ∃ j rj, j ≤ k ∧ (main U input).rounds.get? j = some rj ∧
        rj.selectsHomeRankPawn U = true)) ∧
    (∀ j k rj rk, j ≤ k → (main U input).rounds.get? j = some rj →
      (main U input).rounds.get? k = some rk →
      (∃ f ∈ rj.flags, f = true) → ∀ f ∈ rk.flags, f = true) := by
  have key : ∀ k rk, (main U input).rounds.get? k = some rk → ∀ f ∈ rk.flags,
      (f = true ↔ ∃ j rj, j ≤ k ∧ (main U input).rounds.get? j = some rj ∧
        rj.selectsHomeRankPawn U = true) := by
    intro k rk hk f hf
    have h := mainLoop_flags U (initialLocals U) input k rk hk f hf
    rw [h]
    constructor
    · rintro (h0 | h1)
      · exact absurd h0 (by simp [initialLocals])
      · exact h1
    · exact fun h1 => Or.inr h1
  refine ⟨rfl, ?_, key, ?_⟩
  · intro r hr s1 hctl hstart
    obtain ⟨o, d, hround⟩ := mem_mainLoop U _ input r hr
    generalize r.start = s at hround hstart
    subst hround
    rw [(playRound_flags U s o d).2 s1 hctl, hstart]
    rfl
  · rintro j k rj rk hjk hj hk ⟨f0, hf0, hf0true⟩ f hf
    obtain ⟨i, ri, hij, hi, hsel⟩ := (key j rj hj f0 hf0).1 hf0true
    exact (key k rk hk f hf).2 ⟨i, ri, le_trans hij hjk, hi, hsel⟩

/-- C2, the code against the claim: when the opening position has a pawn of
side P on (6, 0), after a first round that selects it the second round passes
initialPawn = true to the validator although its origin (3, 3) is on no home
rank, so that the flag of §3 is false for this round. -/
theorem initialPawn_stays_set_after_home_rank_pawn (U : ChessUtility)
    (hpawn : ((initialLocals U).board 6 0).type = U.PAWN)
    (dest : Int × Int) (rest : List (Option (Int × Int))) :
    ∃ r2 : Round,
      (main U (some (6, 0) :: some dest :: some (3, 3) :: rest)).rounds.get? 1 = some r2 ∧
      r2.reads.head? = some (some (3, 3)) ∧
      r2.selectsHomeRankPawn U = false ∧
      r2.flags ≠ [] ∧ ∀ f ∈ r2.flags, f = true := by
  obtain ⟨er, ec⟩ := dest
  have hc1 : cellAt (initialLocals U).board 6 0 = some ((initialLocals U).board 6 0) := rfl
  have hnext : ∃ s1, (playRound U (initialLocals U) (some (6, 0)) (some (er, ec))).ctl
      = Control.next s1 := by
    simp only [playRound, hc1]
    exact ⟨_, rfl⟩
  obtain ⟨s1, hs1⟩ := hnext
  have hflag1 : s1.initialPawn = true := by
    rw [(playRound_flags U _ _ _).2 s1 hs1]
    have hsel : (playRound U (initialLocals U) (some (6, 0))
        (some (er, ec))).selectsHomeRankPawn U = true := by
      rw [selectsHomeRankPawn_playRound U _ 6 0 _ _ hc1]
      have hturn : (initialLocals U).currentTurn = 'P' := rfl
      simp [homeRankPawn, hpawn, hturn]
    rw [hsel]; simp
  have hc2 : cellAt s1.board 3 3 = some (s1.board 3 3) := rfl
  refine ⟨playRound U s1 (some (3, 3)) (rest.head?.getD none), ?_, ?_, ?_, ?_, ?_⟩
  · unfold main
    simp only
    rw [mainLoop_next U _ s1 _ _ _ hs1, List.get?_cons_succ, mainLoop_head]
  · cases rest.head?.getD none <;> simp only [playRound, hc2] <;>
      split_ifs <;> rfl
  · rw [selectsHomeRankPawn_playRound U _ 3 3 _ _ hc2]
    simp [homeRankPawn]
  · cases rest.head?.getD none <;> simp only [playRound, hc2] <;>
      split_ifs <;> simp [Round.flags, flagsOf]
  · intro f hf
    rw [(playRound_flags U s1 _ _).1 f hf, hflag1]
    rfl

/-- C2 at work: the standard opening position, input `6 0`, `5 0`, `3 3`. -/
theorem initialPawn_stays_set_after_home_rank_pawn_witness :
    ((initialLocals demoUtility).board 6 0).type = demoUtility.PAWN ∧
    ∃ r2 : Round,
      (main demoUtility [some (6, 0), some (5, 0), some (3, 3)]).rounds.get? 1 = some r2 ∧
      r2.reads.head? = some (some (3, 3)) ∧
      r2.selectsHomeRankPawn demoUtility = false ∧
      r2.flags ≠ [] ∧ ∀ f ∈ r2.flags, f = true :=
  ⟨rfl, initialPawn_stays_set_after_home_rank_pawn demoUtility rfl (5, 0) []⟩

/-! ## The arguments of the validator -/

theorem demo_highlighter_keeps_types : HighlighterKeepsTypes demoUtility := by
  intro board row col type side mode phase initialPawn r c
  show ((demoHighlight board row col type side mode phase initialPawn) r c).type = _
  unfold demoHighlight
  split_ifs <;> rfl

theorem demo_validator_keeps_phase : ValidatorKeepsPhase demoUtility := by
  intro board type side start_row start_col end_row end_col phase initialPawn
  rfl

/-- A highlighter that keeps the piece types keeps the type found by a
lookup. -/
theorem cellAt_highlightAttack (U : ChessUtility) (hkeep : HighlighterKeepsTypes U)
    (board : Board) (row col : Int) (type side : Char) (mode : HighlightMode)
    (phase : GamePhase) (initialPawn : Bool) (sr sc : Int) (cell : ChessBoardType)
    (hc : cellAt board sr sc = some cell) :
    ∃ cell2, cellAt (U.highlightAttack board row col type side mode phase initialPawn) sr sc
        = some cell2 ∧ cell2.type = cell.type := by
  unfold cellAt at hc ⊢
  split_ifs at hc ⊢ with h
  simp only [Option.some.injEq] at hc
  exact ⟨_, rfl, by rw [hkeep, hc]⟩

/-- C3, where the claim fails: in the standard opening position the origin
(0, 0) holds a piece of side O, and the validator is called with side P. -/
theorem side_argument_is_not_the_cell_side :
    ¬ ArgumentsFromOriginCell (main demoUtility [some (0, 0)]) := by
  intro h
  have hmem : playRound demoUtility (initialLocals demoUtility) (some (0, 0)) none
      ∈ (main demoUtility [some (0, 0)]).rounds := by
    unfold main
    simp only
    rw [mainLoop_single]
    exact List.mem_singleton.mpr rfl
  have hcell : cellAt (initialLocals demoUtility).board 0 0 = some ⟨'R', 'O', false⟩ := rfl
  obtain ⟨cell, h1, _, h3⟩ := h _ hmem
    ⟨(initialLocals demoUtility).board, 'R', 'P', 0, 0, 0, 0, GamePhase.SELECTING,
      false, true, GamePhase.SELECTING⟩
    (by
      simp only [playRound, hcell]
      exact List.mem_cons_self _ _)
  simp only at h1 h3
  rw [hcell, Option.some.injEq] at h1
  rw [← h1] at h3
  exact absurd h3 (by decide)

/-- C3 as amended: in every round of the loop of main, every validator call
(the one of the selecting phase and the one of the moving phase) gets as piece
type the type stored in the origin cell of the board at the time of the call,
given a highlighter that leaves piece types alone, and as side the active
side currentTurn, whatever side the origin cell stores. -/
theorem validator_gets_cell_type_and_active_side (U : ChessUtility)
    (hkeep : HighlighterKeepsTypes U) (input : List (Option (Int × Int))) (r : Round)
    (hr : r ∈ (main U input).rounds) :
    ∀ c ∈ r.validatorCalls,
      ∃ cell, cellAt c.board c.start_row c.start_col = some cell ∧
        c.type = cell.type ∧ c.side = r.start.currentTurn := by
  obtain ⟨o, d, hround⟩ := mem_mainLoop U _ input r hr
  generalize r.start = s at hround
  subst hround
  cases o with
  | none => simp [playRound, Round.validatorCalls, validatorCallsOf, invalidInput]
  | some o =>
    obtain ⟨sr, sc⟩ := o
    cases hc : cellAt s.board sr sc with
    | none => simp [playRound, hc, Round.validatorCalls, validatorCallsOf]
    | some cell =>
      have hdirect : ∃ cell1, cellAt s.board sr sc = some cell1 ∧ cell.type = cell1.type :=
        ⟨cell, hc, rfl⟩
      cases d with
      | none =>
        simp only [playRound, hc]
        split_ifs <;>
          simp [Round.validatorCalls, validatorCallsOf, invalidInput, hdirect]
      | some d =>
        obtain ⟨er, ec⟩ := d
        simp only [playRound, hc]
        split_ifs
        all_goals
          simp only [Round.validatorCalls, validatorCallsOf, List.append_assoc,
            List.cons_append, List.nil_append, List.mem_cons, List.mem_singleton,
            List.not_mem_nil, or_false, forall_eq_or_imp, forall_eq, and_true]
          refine ⟨hdirect, ?_⟩
        · obtain ⟨cell1, h1, t1⟩ := cellAt_highlightAttack U hkeep s.board sr sc cell.type
            s.currentTurn HighlightMode.HIGHLIGHT _ _ sr sc cell hc
          obtain ⟨cell2, h2, t2⟩ := cellAt_highlightAttack U hkeep _ sr sc cell.type
            s.currentTurn HighlightMode.DEHIGHLIGHT _ _ sr sc cell1 h1
          exact ⟨cell2, h2, by rw [t2, t1]⟩
        · obtain ⟨cell1, h1, t1⟩ := cellAt_highlightAttack U hkeep s.board sr sc cell.type
            s.currentTurn HighlightMode.HIGHLIGHT _ _ sr sc cell hc
          obtain ⟨cell2, h2, t2⟩ := cellAt_highlightAttack U hkeep _ sr sc cell.type
            s.currentTurn HighlightMode.DEHIGHLIGHT _ _ sr sc cell1 h1
          exact ⟨cell2, h2, by rw [t2, t1]⟩
        · obtain ⟨cell2, h2, t2⟩ := cellAt_highlightAttack U hkeep s.board sr sc cell.type
            s.currentTurn HighlightMode.DEHIGHLIGHT _ _ sr sc cell hc
          exact ⟨cell2, h2, by rw [t2]⟩
        · obtain ⟨cell2, h2, t2⟩ := cellAt_highlightAttack U hkeep s.board sr sc cell.type
            s.currentTurn HighlightMode.DEHIGHLIGHT _ _ sr sc cell hc
          exact ⟨cell2, h2, by rw [t2]⟩

theorem openingRound_mem : openingRound ∈ (main demoUtility openingInput).rounds :=
  first_round_mem demoUtility _ _ []

theorem openingRound_reads : openingRound.reads = [some (6, 0), some (5, 0)] :=
  playRound_reads_full demoUtility _ 6 0 5 0 _ rfl

/-- C3 as amended, at work on the opening round. -/
theorem validator_gets_cell_type_and_active_side_witness :
    HighlighterKeepsTypes demoUtility ∧
    openingRound ∈ (main demoUtility openingInput).rounds ∧
    ∀ c ∈ openingRound.validatorCalls,
      ∃ cell, cellAt c.board c.start_row c.start_col = some cell ∧
        c.type = cell.type ∧ c.side = openingRound.start.currentTurn :=
  ⟨demo_highlighter_keeps_types, openingRound_mem,
   validator_gets_cell_type_and_active_side demoUtility demo_highlighter_keeps_types
     openingInput openingRound openingRound_mem⟩

/-! ## Highlighting and the phase -/

/-- C4: in every round of the loop of main in which the destination read
succeeds, highlightAttack is called exactly once in DEHIGHLIGHT mode, whatever
the validator answered, after the destination read and directly before the
phase is set to MOVING (no assignment to the phase precedes it in the round);
the only other highlighter call of the round is the HIGHLIGHT call made when
the selecting-phase validator call returned true, and the DEHIGHLIGHT call has
the same origin (row, col), piece type, side, phase and initial-pawn flag as
that call. -/
theorem dehighlight_once_before_moving (U : ChessUtility)
    (input : List (Option (Int × Int))) (r : Round) (hr : r ∈ (main U input).rounds)
    (origin dest : Int × Int) (hreads : r.reads = [some origin, some dest]) :
    ∃ (pre post : List Event) (dh : HighlightCall) (sel : ValidatorCall),
      r.events = pre ++ Event.highlightAttack dh :: Event.assignState GamePhase.MOVING :: post ∧
      readsOf pre = [some origin, some dest] ∧
      assignmentsOf pre = [] ∧
      dh.mode = HighlightMode.DEHIGHLIGHT ∧
      (dh.row, dh.col) = origin ∧
      (r.highlightCalls.filter fun h => h.mode = HighlightMode.DEHIGHLIGHT) = [dh] ∧
      highlightCallsOf post = [] ∧
      validatorCallsOf pre = [sel] ∧
      (highlightCallsOf pre).length = (if sel.result then 1 else 0) ∧
      ∀ h ∈ highlightCallsOf pre,
        h.mode = HighlightMode.HIGHLIGHT ∧ h.row = dh.row ∧ h.col = dh.col ∧
          h.type = dh.type ∧ h.side = dh.side ∧ h.state = dh.state ∧
          h.initialPawn = dh.initialPawn := by
  obtain ⟨o, d, hround⟩ := mem_mainLoop U _ input r hr
  generalize r.start = s at hround
  subst hround
  obtain ⟨ho, hd, cell, hc⟩ := playRound_of_two_reads U s o d origin dest hreads
  subst ho; subst hd
  obtain ⟨sr, sc⟩ := origin
  obtain ⟨er, ec⟩ := dest
  simp only at hc
  simp only [playRound, hc]
  split_ifs with h1 h2 h2
  · refine ⟨_ :: _ :: _ :: _ :: _ :: _ :: _ :: _ :: _ :: _ :: [_], _, _, _,
      rfl, rfl, rfl, rfl, rfl, ?_, rfl, rfl, ?_, ?_⟩ <;>
    simp [Round.highlightCalls, highlightCallsOf, h1]
  · refine ⟨_ :: _ :: _ :: _ :: _ :: _ :: _ :: _ :: _ :: _ :: [_], _, _, _,
      rfl, rfl, rfl, rfl, rfl, ?_, rfl, rfl, ?_, ?_⟩ <;>
    simp [Round.highlightCalls, highlightCallsOf, h1]
  · refine ⟨_ :: _ :: _ :: _ :: _ :: _ :: [_], _, _, _,
      rfl, rfl, rfl, rfl, rfl, ?_, rfl, rfl, ?_, ?_⟩ <;>
    simp [Round.highlightCalls, highlightCallsOf, h1]
  · refine ⟨_ :: _ :: _ :: _ :: _ :: _ :: [_], _, _, _,
      rfl, rfl, rfl, rfl, rfl, ?_, rfl, rfl, ?_, ?_⟩ <;>
    simp [Round.highlightCalls, highlightCallsOf, h1]

/-- C4 at work on the opening round. -/
theorem dehighlight_once_before_moving_witness :
    openingRound ∈ (main demoUtility openingInput).rounds ∧
    openingRound.reads = [some (6, 0), some (5, 0)] ∧
    ∃ (pre post : List Event) (dh : HighlightCall) (sel : ValidatorCall),
      openingRound.events
        = pre ++ Event.highlightAttack dh :: Event.assignState GamePhase.MOVING :: post ∧
      readsOf pre = [some (6, 0), some (5, 0)] ∧
      assignmentsOf pre = [] ∧
      dh.mode = HighlightMode.DEHIGHLIGHT ∧
      (dh.row, dh.col) = ((6, 0) : Int × Int) ∧
      (openingRound.highlightCalls.filter fun h => h.mode = HighlightMode.DEHIGHLIGHT) = [dh] ∧
      highlightCallsOf post = [] ∧
      validatorCallsOf pre = [sel] ∧
      (highlightCallsOf pre).length = (if sel.result then 1 else 0) ∧
      ∀ h ∈ highlightCallsOf pre,
        h.mode = HighlightMode.HIGHLIGHT ∧ h.row = dh.row ∧ h.col = dh.col ∧
          h.type = dh.type ∧ h.side = dh.side ∧ h.state = dh.state ∧
          h.initialPawn = dh.initialPawn :=
  ⟨openingRound_mem, openingRound_reads,
   dehighlight_once_before_moving demoUtility openingInput openingRound openingRound_mem
     (6, 0) (5, 0) openingRound_reads⟩

/-- C5: the phase follows a two-beat cycle.  Every round of the loop of main
starts in the phase SELECTING, the first one and every later one, whether or
not the move of the round before was accepted; a round whose destination read
succeeds assigns MOVING and then SELECTING to the phase, makes its second
validator call with the phase MOVING and, the validator leaving the phase
alone, makes its movePiece call with the phase MOVING. -/
theorem phase_two_beat_cycle (U : ChessUtility) (hpure : ValidatorKeepsPhase U)
    (input : List (Option (Int × Int))) (r : Round) (hr : r ∈ (main U input).rounds) :
    r.start.currentState = GamePhase.SELECTING ∧
    (∀ s1, r.ctl = Control.next s1 → s1.currentState = GamePhase.SELECTING) ∧
    (∀ origin dest : Int × Int, r.reads = [some origin, some dest] →
      assignmentsOf r.events = [GamePhase.MOVING, GamePhase.SELECTING] ∧
      ∃ sel mov : ValidatorCall,
        r.validatorCalls = [sel, mov] ∧ sel.state = GamePhase.SELECTING ∧
        mov.state = GamePhase.MOVING ∧
        ∀ m ∈ r.moveCalls, m.state = GamePhase.MOVING) := by
  have hstart : r.start.currentState = GamePhase.SELECTING :=
    mainLoop_start_state U (initialLocals U) input rfl r hr
  obtain ⟨o, d, hround⟩ := mem_mainLoop U _ input r hr
  generalize r.start = s at hround hstart
  subst hround
  refine ⟨hstart, ?_, ?_⟩
  · intro s1 h
    exact playRound_next_state U s s1 o d h
  · intro origin dest hreads
    obtain ⟨ho, hd, cell, hc⟩ := playRound_of_two_reads U s o d origin dest hreads
    subst ho; subst hd
    obtain ⟨sr, sc⟩ := origin
    obtain ⟨er, ec⟩ := dest
    simp only at hc
    simp only [playRound, hc]
    split_ifs <;>
      refine ⟨rfl, _, _, rfl, hstart, rfl, ?_⟩ <;>
      simp [Round.moveCalls, moveCallsOf, hpure _ _ _ _ _ _ _ _ _]

/-- C5 at work on the opening round. -/
theorem phase_two_beat_cycle_witness :
    ValidatorKeepsPhase demoUtility ∧
    openingRound ∈ (main demoUtility openingInput).rounds ∧
    openingRound.start.currentState = GamePhase.SELECTING ∧
    (∀ s1, openingRound.ctl = Control.next s1 → s1.currentState = GamePhase.SELECTING) ∧
    (∀ origin dest : Int × Int, openingRound.reads = [some origin, some dest] →
      assignmentsOf openingRound.events = [GamePhase.MOVING, GamePhase.SELECTING] ∧
      ∃ sel mov : ValidatorCall,
        openingRound.validatorCalls = [sel, mov] ∧ sel.state = GamePhase.SELECTING ∧
        mov.state = GamePhase.MOVING ∧
        ∀ m ∈ openingRound.moveCalls, m.state = GamePhase.MOVING) :=
  ⟨demo_validator_keeps_phase, openingRound_mem,
   phase_two_beat_cycle demoUtility demo_validator_keeps_phase openingInput openingRound
     openingRound_mem⟩

/-! ## The origin lookup -/

/-- The lookup succeeds exactly on the board. -/
theorem cellAt_eq_none_iff (board : Board) (row col : Int) :
    cellAt board row col = none ↔ ¬ (0 ≤ row ∧ row < 8 ∧ 0 ≤ col ∧ col < 8) := by
  unfold cellAt
  split_ifs with h
  · simp only [reduceCtorEq, false_iff, not_not]
    exact h
  · simp only [true_iff]
    exact h

/-- C9: main looks up board[start_row][start_col] for every origin pair that
was read, with no bounds check before it.  For an origin with
0 ≤ start_row < 8 and 0 ≤ start_col < 8 the lookup is in bounds and yields the
type of the cell, which is the type the validator is then called with; for
any other origin the lookup is attempted all the same: the round neither
breaks out of the loop nor goes on to the next round, it ends in the
out-of-bounds access, before any validator call and before the destination
is read. -/
theorem origin_lookup_has_no_bounds_check (U : ChessUtility)
    (input : List (Option (Int × Int))) (r : Round) (hr : r ∈ (main U input).rounds)
    (start_row start_col : Int)
    (hread : r.reads.head? = some (some (start_row, start_col))) :
    ((0 ≤ start_row ∧ start_row < 8 ∧ 0 ≤ start_col ∧ start_col < 8) →
      ∃ (cell : ChessBoardType) (sel : ValidatorCall),
        cellAt r.start.board start_row start_col = some cell ∧
        r.validatorCalls.head? = some sel ∧ sel.type = cell.type ∧
        r.ctl ≠ Control.undefined) ∧
    (¬ (0 ≤ start_row ∧ start_row < 8 ∧ 0 ≤ start_col ∧ start_col < 8) →
      cellAt r.start.board start_row start_col = none ∧
      r.ctl = Control.undefined ∧
      r.validatorCalls = [] ∧
      r.reads = [some (start_row, start_col)]) := by
  obtain ⟨o, d, hround⟩ := mem_mainLoop U _ input r hr
  generalize r.start = s at hround
  subst hround
  cases o with
  | none => simp [playRound, Round.reads, readsOf, invalidInput] at hread
  | some o =>
    obtain ⟨sr, sc⟩ := o
    have hsame : sr = start_row ∧ sc = start_col := by
      cases hc : cellAt s.board sr sc with
      | none => simpa [playRound, hc, Round.reads, readsOf] using hread
      | some cell =>
        cases d <;> simp only [playRound, hc] at hread <;> split_ifs at hread <;>
          simpa [Round.reads, readsOf] using hread
    obtain ⟨h1, h2⟩ := hsame
    subst h1; subst h2
    constructor
    · intro hin
      cases hc : cellAt s.board sr sc with
      | none => exact absurd hin ((cellAt_eq_none_iff s.board sr sc).1 hc)
      | some cell =>
        cases d <;> simp only [playRound, hc] <;> split_ifs <;>
          exact ⟨cell, _, rfl, rfl, rfl, by simp⟩
    · intro hout
      have hc := (cellAt_eq_none_iff s.board sr sc).2 hout
      refine ⟨hc, ?_, ?_, ?_⟩ <;> simp only [playRound, hc] <;> rfl

/-- C9 at work on the opening round. -/
theorem origin_lookup_has_no_bounds_check_witness :
    openingRound ∈ (main demoUtility openingInput).rounds ∧
    openingRound.reads.head? = some (some (6, 0)) ∧
    (((0 : Int) ≤ 6 ∧ (6 : Int) < 8 ∧ (0 : Int) ≤ 0 ∧ (0 : Int) < 8) →
      ∃ (cell : ChessBoardType) (sel : ValidatorCall),
        cellAt openingRound.start.board 6 0 = some cell ∧
        openingRound.validatorCalls.head? = some sel ∧ sel.type = cell.type ∧
        openingRound.ctl ≠ Control.undefined) ∧
    (¬ ((0 : Int) ≤ 6 ∧ (6 : Int) < 8 ∧ (0 : Int) ≤ 0 ∧ (0 : Int) < 8) →
      cellAt openingRound.start.board 6 0 = none ∧
      openingRound.ctl = Control.undefined ∧
      openingRound.validatorCalls = [] ∧
      openingRound.reads = [some (6, 0)]) :=
  ⟨openingRound_mem, by rw [openingRound_reads]; rfl,
   origin_lookup_has_no_bounds_check demoUtility openingInput openingRound openingRound_mem
     6 0 (by rw [openingRound_reads]; rfl)⟩

/-! ## How the loop ends -/

/-- How a round ends, read off its coordinate reads. -/
theorem playRound_ctl (U : ChessUtility) (s : Locals) (o d : Option (Int × Int)) :
    ((playRound U s o d).ctl = Control.brk ↔ none ∈ (playRound U s o d).reads) ∧
    (none ∈ (playRound U s o d).reads →
      ∃ pre, (playRound U s o d).events = pre ++ invalidInput ∧ none ∉ readsOf pre) ∧
    (∀ origin dest : Int × Int, (playRound U s o d).reads = [some origin, some dest] →
      ∃ s1, (playRound U s o d).ctl = Control.next s1) ∧
    ((playRound U s o d).ctl = Control.undefined ↔
      ∃ origin : Int × Int, (playRound U s o d).reads = [some origin] ∧
        cellAt s.board origin.1 origin.2 = none) := by
  cases o with
  | none =>
    refine ⟨?_, ?_, ?_, ?_⟩
    · simp [playRound, Round.reads, readsOf, invalidInput]
    · intro _
      exact ⟨[Event.printf "Enter initial move: "], rfl, by simp [readsOf]⟩
    · simp [playRound, Round.reads, readsOf, invalidInput]
    · simp [playRound, Round.reads, readsOf, invalidInput]
  | some o =>
    obtain ⟨sr, sc⟩ := o
    cases hc : cellAt s.board sr sc with
    | none =>
      refine ⟨?_, ?_, ?_, ?_⟩
      · simp [playRound, hc, Round.reads, readsOf]
      · simp [playRound, hc, Round.reads, readsOf]
      · simp [playRound, hc, Round.reads, readsOf]
      · simp only [playRound, hc, Round.reads, readsOf, true_iff]
        exact ⟨(sr, sc), rfl, hc⟩
    | some cell =>
      cases d with
      | none =>
        simp only [playRound, hc]
        split_ifs
        all_goals
          refine ⟨?_, ?_, ?_, ?_⟩
          · simp [Round.reads, readsOf, invalidInput]
          · intro _
            exact ⟨_, rfl, by simp [readsOf]⟩
          · simp [Round.reads, readsOf, invalidInput]
          · simp [Round.reads, readsOf, invalidInput]
      | some d =>
        obtain ⟨er, ec⟩ := d
        simp only [playRound, hc]
        split_ifs
        all_goals
          refine ⟨?_, ?_, ?_, ?_⟩
          · simp [Round.reads, readsOf]
          · simp [Round.reads, readsOf]
          · intro _ _ _
            exact ⟨_, rfl⟩
          · simp [Round.reads, readsOf]

/-- The loop plays at least one round, and its first round starts from the
variables the loop was entered with. -/
theorem mainLoop_first (U : ChessUtility) (s : Locals) (input : List (Option (Int × Int))) :
    ∃ r, (mainLoop U s input).get? 0 = some r ∧ r.start = s := by
  cases input with
  | nil => exact ⟨_, by rw [mainLoop_nil]; rfl, playRound_start U s none none⟩
  | cons origin rest => exact ⟨_, mainLoop_head U s origin rest, playRound_start U s _ _⟩

/-- A round that ends in `Control.next` is followed by a round that starts from
the variables it hands on; any other round is the last one. -/
theorem mainLoop_chain (U : ChessUtility) (s : Locals) (input : List (Option (Int × Int))) :
    ∀ k r, (mainLoop U s input).get? k = some r →
      (∀ s1, r.ctl = Control.next s1 →
        ∃ r2, (mainLoop U s input).get? (k + 1) = some r2 ∧ r2.start = s1) ∧
      ((∀ s1, r.ctl ≠ Control.next s1) → (mainLoop U s input).length = k + 1) := by
  induction s, input using mainLoop.induct U with
  | case1 s =>
    intro k r hk
    rw [mainLoop_nil] at hk ⊢
    cases k with
    | zero =>
      simp only [List.get?_cons_zero, Option.some.injEq] at hk
      subst hk
      exact ⟨fun s1 h => by simp [playRound] at h, fun _ => rfl⟩
    | succ k => simp at hk
  | case2 s origin =>
    intro k r hk
    rw [mainLoop_single] at hk ⊢
    cases k with
    | zero =>
      simp only [List.get?_cons_zero, Option.some.injEq] at hk
      subst hk
      refine ⟨fun s1 h => ?_, fun _ => rfl⟩
      cases origin with
      | none => simp [playRound] at h
      | some o =>
        obtain ⟨sr, sc⟩ := o
        cases hc : cellAt s.board sr sc <;> simp [playRound, hc] at h
    | succ k => simp at hk
  | case3 s origin dest rest s1 h ih =>
    intro k r hk
    rw [mainLoop_next U s s1 origin dest rest h] at hk ⊢
    cases k with
    | zero =>
      simp only [List.get?_cons_zero, Option.some.injEq] at hk
      subst hk
      refine ⟨fun s2 h2 => ?_, fun hno => absurd h (hno s1)⟩
      rw [h, Control.next.injEq] at h2
      subst h2
      simpa using mainLoop_first U s1 rest
    | succ k =>
      simp only [List.get?_cons_succ] at hk
      obtain ⟨h1, h2⟩ := ih k r hk
      refine ⟨fun s2 hs2 => ?_, fun hno => ?_⟩
      · simpa using h1 s2 hs2
      · simp [h2 hno]
  | case4 s origin dest rest h =>
    intro k r hk
    rw [mainLoop_stop U s origin dest rest h] at hk ⊢
    cases k with
    | zero =>
      simp only [List.get?_cons_zero, Option.some.injEq] at hk
      subst hk
      exact ⟨fun s1 h1 => absurd h1 (fun h2 => h s1 h2), fun _ => rfl⟩
    | succ k => simp at hk

/-! ## The executor and the turn manager -/

theorem openingRound_first : (main demoUtility openingInput).rounds.get? 0 = some openingRound :=
  mainLoop_head demoUtility _ _ _

/-- C1: in every round of the loop of main in which both coordinate reads
succeed there are two validator calls, the second one being the Moving-phase
call on (origin, destination); movePiece and switchTurn are called exactly
when that call returns true: then movePiece is called exactly once, with this
round's side, destination and origin, switchTurn is called once, on the active
side, and the next round starts with the active side switchTurn(currentTurn);
otherwise neither is called and the next round starts with the active side of
this round. -/
theorem movePiece_switchTurn_iff_move_valid (U : ChessUtility)
    (input : List (Option (Int × Int))) (k : Nat) (r : Round)
    (hk : (main U input).rounds.get? k = some r)
    (origin dest : Int × Int) (hreads : r.reads = [some origin, some dest]) :
    ∃ (sel mov : ValidatorCall) (following : Round),
      r.validatorCalls = [sel, mov] ∧
      mov.state = GamePhase.MOVING ∧
      (mov.start_row, mov.start_col) = origin ∧ (mov.end_row, mov.end_col) = dest ∧
      mov.result = mov.verdict U ∧
      r.moveCalls =
        (if mov.result then
          [⟨mov.board, r.start.currentTurn, dest.1, dest.2, mov.stateOut, origin.1, origin.2⟩]
         else []) ∧
      r.switchCalls = (if mov.result then [r.start.currentTurn] else []) ∧
      (main U input).rounds.get? (k + 1) = some following ∧
      r.ctl = Control.next following.start ∧
      following.start.currentTurn =
        (if mov.result then U.switchTurn r.start.currentTurn else r.start.currentTurn) := by
  have hk1 : (mainLoop U (initialLocals U) input).get? k = some r := hk
  have hget : (main U input).rounds.get? (k + 1)
      = (mainLoop U (initialLocals U) input).get? (k + 1) := rfl
  obtain ⟨hnext, _⟩ := mainLoop_chain U (initialLocals U) input k r hk1
  obtain ⟨o, d, hround⟩ := mem_mainLoop U _ input r (List.get?_mem hk1)
  generalize r.start = s at hround
  subst hround
  obtain ⟨ho, hd, cell, hc⟩ := playRound_of_two_reads U s o d origin dest hreads
  subst ho; subst hd
  obtain ⟨s1, hs1⟩ := (playRound_ctl U s _ _).2.2.1 origin dest hreads
  obtain ⟨following, hfollowing, hstart⟩ := hnext s1 hs1
  rw [hget, hfollowing]
  subst hstart
  obtain ⟨sr, sc⟩ := origin
  obtain ⟨er, ec⟩ := dest
  simp only at hc
  simp only [playRound, hc, Control.next.injEq] at hs1
  have hturn := congrArg Locals.currentTurn hs1
  simp only [playRound, hc]
  split_ifs at hs1 hturn ⊢ <;>
    refine ⟨_, _, following, rfl, rfl, rfl, rfl, rfl, ?_, ?_, rfl, ?_, ?_⟩ <;>
    first
    | exact congrArg Control.next hs1
    | (rw [← hturn]; simp [*])
    | simp [Round.moveCalls, moveCallsOf, Round.switchCalls, switchCallsOf, *]

/-- C1 at work on the opening round. -/
theorem movePiece_switchTurn_iff_move_valid_witness :
    (main demoUtility openingInput).rounds.get? 0 = some openingRound ∧
    openingRound.reads = [some (6, 0), some (5, 0)] ∧
    ∃ (sel mov : ValidatorCall) (following : Round),
      openingRound.validatorCalls = [sel, mov] ∧
      mov.state = GamePhase.MOVING ∧
      (mov.start_row, mov.start_col) = ((6, 0) : Int × Int) ∧
      (mov.end_row, mov.end_col) = ((5, 0) : Int × Int) ∧
      mov.result = mov.verdict demoUtility ∧
      openingRound.moveCalls =
        (if mov.result then
          [⟨mov.board, openingRound.start.currentTurn, ((5, 0) : Int × Int).1,
            ((5, 0) : Int × Int).2, mov.stateOut, ((6, 0) : Int × Int).1,
            ((6, 0) : Int × Int).2⟩]
         else []) ∧
      openingRound.switchCalls = (if mov.result then [openingRound.start.currentTurn] else []) ∧
      (main demoUtility openingInput).rounds.get? (0 + 1) = some following ∧
      openingRound.ctl = Control.next following.start ∧
      following.start.currentTurn =
        (if mov.result then demoUtility.switchTurn openingRound.start.currentTurn
         else openingRound.start.currentTurn) :=
  ⟨openingRound_first, openingRound_reads,
   movePiece_switchTurn_iff_move_valid demoUtility openingInput 0 openingRound
     openingRound_first (6, 0) (5, 0) openingRound_reads⟩

/-- C6, where the claim fails: the origin `8 0` is read successfully, the
lookup of line 95 is out of bounds, and the run stops in its first round with
no failed read. -/
theorem off_board_origin_stops_the_run :
    ¬ EndsOnlyOnFailedRead (main demoUtility offBoardInput) := by
  intro h
  have hrounds : (main demoUtility offBoardInput).rounds
      = [playRound demoUtility (initialLocals demoUtility) (some (8, 0)) none] := by
    unfold main offBoardInput
    simp only
    rw [mainLoop_single]
  have hcell : cellAt (initialLocals demoUtility).board 8 0 = none := rfl
  have hreads : (playRound demoUtility (initialLocals demoUtility) (some (8, 0)) none).reads
      = [some (8, 0)] := by
    simp only [playRound, hcell]
    rfl
  obtain ⟨hlast, _⟩ := h 0 _ (by rw [hrounds]; rfl)
  have hnone := hlast.1 (by rw [hrounds]; rfl)
  rw [hreads] at hnone
  simp at hnone

/-- C6 as amended: the loop of main is left exactly on a failed coordinate
read.  The run always has a first round; a round breaks out of the loop if and
only if one of its reads (origin or destination) fails; the failed read is
then the last read of the run and is followed by the message only, by no
validator, highlighter, executor or turn-manager call; a round whose two reads
succeed never ends the run, whatever the validator answered: the next round
starts from the variables it hands on.  Besides a failed read, the one thing
that stops the run is a successfully read origin that lies off the board: the
round then ends in the out-of-bounds lookup of line 95; for a round whose
origin lies on the board, being the last round and having a failed read are
the same. -/
theorem loop_left_iff_read_fails (U : ChessUtility) (input : List (Option (Int × Int))) :
    (main U input).rounds ≠ [] ∧
    ∀ k r, (main U input).rounds.get? k = some r →
      (r.ctl = Control.brk ↔ none ∈ r.reads) ∧
      (none ∈ r.reads →
        (main U input).rounds.length = k + 1 ∧
        ∃ pre, r.events = pre ++ [Event.scanf none,
            Event.printf "Invalid input, exiting loop.\n"] ∧ none ∉ readsOf pre) ∧
      (∀ origin dest : Int × Int, r.reads = [some origin, some dest] →
        ∃ r2, (main U input).rounds.get? (k + 1) = some r2 ∧ r.ctl = Control.next r2.start) ∧
      (r.ctl = Control.undefined ↔
        ∃ origin : Int × Int, r.reads = [some origin] ∧
          cellAt r.start.board origin.1 origin.2 = none) ∧
      ((main U input).rounds.length = k + 1 ↔ none ∈ r.reads ∨ r.ctl = Control.undefined) ∧
      (r.ctl ≠ Control.undefined →
        ((main U input).rounds.length = k + 1 ↔ none ∈ r.reads)) := by
  constructor
  · obtain ⟨r, hr, _⟩ := mainLoop_first U (initialLocals U) input
    intro h
    unfold main at h
    simp only at h
    rw [h] at hr
    simp at hr
  · intro k r hk
    have hk1 : (mainLoop U (initialLocals U) input).get? k = some r := hk
    have hlen : (main U input).rounds.length
        = (mainLoop U (initialLocals U) input).length := rfl
    have hget : ∀ j, (main U input).rounds.get? j
        = (mainLoop U (initialLocals U) input).get? j := fun _ => rfl
    obtain ⟨hnext, hlast⟩ := mainLoop_chain U (initialLocals U) input k r hk1
    obtain ⟨o, d, hround⟩ := mem_mainLoop U _ input r (List.get?_mem hk1)
    generalize r.start = s at hround
    subst hround
    obtain ⟨hbrk, hpre, hfull, hundef⟩ := playRound_ctl U s o d
    have hbrk_last : (playRound U s o d).ctl = Control.brk →
        (mainLoop U (initialLocals U) input).length = k + 1 := fun h =>
      hlast (fun s1 h1 => by rw [h] at h1; exact Control.noConfusion h1)
    have hundef_last : (playRound U s o d).ctl = Control.undefined →
        (mainLoop U (initialLocals U) input).length = k + 1 := fun h =>
      hlast (fun s1 h1 => by rw [h] at h1; exact Control.noConfusion h1)
    have hlastiff : (mainLoop U (initialLocals U) input).length = k + 1 ↔
        none ∈ (playRound U s o d).reads ∨ (playRound U s o d).ctl = Control.undefined := by
      constructor
      · intro hl
        cases hctl : (playRound U s o d).ctl with
        | next s1 =>
          obtain ⟨r2, hr2, _⟩ := hnext s1 hctl
          have hlt := (List.get?_eq_some.1 hr2).1
          omega
        | brk => exact Or.inl (hbrk.1 hctl)
        | undefined => exact Or.inr rfl
      · rintro (h | h)
        · exact hbrk_last (hbrk.2 h)
        · exact hundef_last h
    refine ⟨hbrk, fun h => ⟨by rw [hlen]; exact hbrk_last (hbrk.2 h), hpre h⟩, ?_, hundef,
      by rw [hlen]; exact hlastiff, ?_⟩
    · intro origin dest hreads
      obtain ⟨s1, hs1⟩ := hfull origin dest hreads
      obtain ⟨r2, hr2, hstart⟩ := hnext s1 hs1
      exact ⟨r2, by rw [hget]; exact hr2, by rw [hstart]; exact hs1⟩
    · intro hdef
      rw [hlen, hlastiff]
      exact ⟨fun h => h.resolve_right hdef, Or.inl⟩

/-! ## The board dumps -/

theorem dumpedBeforeNextRead_append (board : Board) (l1 l2 : List Event)
    (h : dumpedBeforeNextRead board l1) : dumpedBeforeNextRead board (l1 ++ l2) := by
  induction l1 with
  | nil => exact absurd h (by simp [dumpedBeforeNextRead])
  | cons e rest ih =>
    cases e <;> simp only [List.cons_append, dumpedBeforeNextRead] at h ⊢
    case outputBoard shown =>
      rcases h with h | h
      · exact Or.inl h
      · exact Or.inr (ih h)
    all_goals exact ih h

theorem everyStepDumped_append (after : Event → Option Board) (l1 l2 : List Event)
    (h1 : everyStepDumped after l1) (h2 : everyStepDumped after l2) :
    everyStepDumped after (l1 ++ l2) := by
  induction l1 with
  | nil => exact h2
  | cons e rest ih =>
    simp only [List.cons_append, everyStepDumped] at h1 ⊢
    exact ⟨fun board hb => dumpedBeforeNextRead_append board rest l2 (h1.1 board hb), ih h1.2⟩

theorem everyStepDumped_split (after : Event → Option Board) (pre post : List Event)
    (e : Event) (h : everyStepDumped after (pre ++ e :: post)) :
    ∀ board, after e = some board → dumpedBeforeNextRead board post := by
  induction pre with
  | nil => exact h.1
  | cons x rest ih => exact ih h.2

/-- In a round, the `HIGHLIGHT` call and the `movePiece` call are each followed
by the dump of the board they leave. -/
theorem playRound_dumps (U : ChessUtility) (s : Locals) (o d : Option (Int × Int)) :
    everyStepDumped (Event.boardAfterShown U) (playRound U s o d).events := by
  cases o with
  | none => simp [playRound, invalidInput, everyStepDumped, Event.boardAfterShown]
  | some o =>
    obtain ⟨sr, sc⟩ := o
    cases hc : cellAt s.board sr sc with
    | none => simp [playRound, hc, everyStepDumped, Event.boardAfterShown]
    | some cell =>
      cases d with
      | none =>
        simp only [playRound, hc]
        split_ifs with h1 <;>
          simp [invalidInput, everyStepDumped, Event.boardAfterShown, dumpedBeforeNextRead, h1]
      | some d =>
        obtain ⟨er, ec⟩ := d
        simp only [playRound, hc]
        split_ifs with h1 h2 h2 <;>
          simp [everyStepDumped, Event.boardAfterShown, dumpedBeforeNextRead, h1, h2]

theorem rounds_dumps (U : ChessUtility) (rounds : List Round)
    (h : ∀ r ∈ rounds, ∃ o d, r = playRound U r.start o d) :
    everyStepDumped (Event.boardAfterShown U) (rounds.flatMap Round.events) := by
  induction rounds with
  | nil => simp [everyStepDumped]
  | cons r rest ih =>
    rw [List.flatMap_cons]
    refine everyStepDumped_append _ _ _ ?_ (ih fun x hx => h x (List.mem_cons_of_mem _ hx))
    obtain ⟨o, d, hr⟩ := h r (List.mem_cons_self _ _)
    rw [hr]
    exact playRound_dumps U _ o d

/-- A round with two successful reads in which the validator refused both
times ends with the DEHIGHLIGHT call, the two phase assignments and the
refused validator call between them: nothing is dumped after the call. -/
theorem refused_round_events (U : ChessUtility) (s : Locals) (o d : Option (Int × Int))
    (origin dest : Int × Int)
    (hreads : (playRound U s o d).reads = [some origin, some dest])
    (href : ∀ c ∈ (playRound U s o d).validatorCalls, c.result = false) :
    ∃ (pre : List Event) (dh : HighlightCall) (mov : ValidatorCall),
      (playRound U s o d).events
        = pre ++ [Event.highlightAttack dh, Event.assignState GamePhase.MOVING,
            Event.checkIfValidPosition mov, Event.assignState GamePhase.SELECTING] := by
  obtain ⟨ho, hd, cell, hc⟩ := playRound_of_two_reads U s o d origin dest hreads
  subst ho; subst hd
  obtain ⟨sr, sc⟩ := origin
  obtain ⟨er, ec⟩ := dest
  simp only at hc
  simp only [playRound, hc] at href ⊢
  split_ifs at href ⊢ with h1 h2 h2
  · simp [Round.validatorCalls, validatorCallsOf, h1] at href
  · simp [Round.validatorCalls, validatorCallsOf, h1] at href
  · simp [Round.validatorCalls, validatorCallsOf, h2] at href
  · exact ⟨_ :: _ :: _ :: _ :: _ :: _ :: [_], _, _, rfl⟩

/-- C8, where the claim fails: on the standard opening position the input
`3 3`, `4 4` selects an empty square; the move is refused, and the board the
DEHIGHLIGHT call leaves is not dumped before the next read. -/
theorem no_dump_after_dehighlight :
    ¬ DumpAfterEveryBoardStep demoUtility (main demoUtility emptySquareInput) := by
  rintro ⟨_, h⟩
  have hcell : cellAt (initialLocals demoUtility).board 3 3 = some ⟨'X', 'X', false⟩ := rfl
  obtain ⟨s1, hnext⟩ : ∃ s1, (playRound demoUtility (initialLocals demoUtility)
      (some (3, 3)) (some (4, 4))).ctl = Control.next s1 := ⟨_, rfl⟩
  have href : ∀ c ∈ (playRound demoUtility (initialLocals demoUtility) (some (3, 3))
      (some (4, 4))).validatorCalls, c.result = false := by
    intro c hc
    have hcalls : (playRound demoUtility (initialLocals demoUtility) (some (3, 3))
        (some (4, 4))).validatorCalls = [_, _] := rfl
    rw [hcalls] at hc
    simp only [List.mem_cons, List.mem_singleton, List.not_mem_nil, or_false] at hc
    rcases hc with hc | hc <;> rw [hc] <;> rfl
  obtain ⟨pre, dh, mov, hev⟩ := refused_round_events demoUtility _ _ _ (3, 3) (4, 4)
    (playRound_reads_full demoUtility _ 3 3 4 4 _ hcell) href
  unfold Run.trace main emptySquareInput at h
  simp only at h
  rw [mainLoop_next demoUtility _ s1 _ _ _ hnext, mainLoop_nil] at h
  simp only [List.flatMap_cons, List.flatMap_nil, List.append_nil] at h
  rw [hev] at h
  have hsplit := everyStepDumped_split (Event.boardAfter demoUtility)
    (Event.outputBoard (initialLocals demoUtility).board :: pre)
    ([Event.assignState GamePhase.MOVING, Event.checkIfValidPosition mov,
        Event.assignState GamePhase.SELECTING]
      ++ (playRound demoUtility s1 none none).events)
    (Event.highlightAttack dh) (by simpa using h) _ rfl
  simp [dumpedBeforeNextRead, playRound, invalidInput] at hsplit

/-- C8 as amended: the board is dumped once after the initial population and,
in every round, after the HIGHLIGHT call of highlightAttack and after
movePiece: outputBoard is called on the board the call leaves before the next
coordinate read.  The DEHIGHLIGHT call is not followed by a dump of its own. -/
theorem dump_after_highlight_and_move (U : ChessUtility)
    (input : List (Option (Int × Int))) :
    (main U input).trace.head? = some (Event.outputBoard (initialLocals U).board) ∧
    everyStepDumped (Event.boardAfterShown U) (main U input).trace := by
  refine ⟨rfl, ?_⟩
  unfold Run.trace main
  simp only [List.singleton_append, everyStepDumped]
  refine ⟨by simp [Event.boardAfterShown], ?_⟩
  exact rounds_dumps U _ (mem_mainLoop U _ input)

/-! ## The board dump -/

theorem printHighlight_eq (flag : Bool) :
    printHighlight flag = [if flag then '1' else '0'] ++ [' '] := by
  cases flag <;> rfl

/-- C7: for every 8×8 board, outputBoard writes exactly 3·8 lines of 8 tokens
each, every token followed by a space and every line ended by a newline, in
this order: lines 1–8 carry the piece-type code of each cell of rows 0..7,
columns 0..7 from left to right, lines 9–16 the side code of each cell in the
same order, lines 17–24 the highlight flag of each cell in the same order,
written 1 when set and 0 when clear; and outputBoard changes no cell of the
board. -/
theorem outputBoard_three_grids (board : Board) :
    (outputBoard board).1 = board ∧
    ∃ lines : List (List (List Char)),
      (outputBoard board).2 = lines.flatMap renderLine ∧
      lines.length = 3 * 8 ∧
      (∀ tokens ∈ lines, tokens.length = 8) ∧
      ∀ row col : Fin 8,
        tokenAt lines row.val col.val = some [(board row col).type] ∧
        tokenAt lines (8 + row.val) col.val = some [(board row col).side] ∧
        tokenAt lines (16 + row.val) col.val
          = some [if (board row col).highlight then '1' else '0'] := by
  refine ⟨rfl,
    ((List.finRange 8).map fun r => (List.finRange 8).map fun c => [(board r c).type])
      ++ ((List.finRange 8).map fun r => (List.finRange 8).map fun c => [(board r c).side])
      ++ ((List.finRange 8).map fun r => (List.finRange 8).map fun c =>
            [if (board r c).highlight then '1' else '0']),
    ?_, ?_, ?_, ?_⟩
  · simp only [outputBoard, outputTypes, outputSides, outputHighlights, List.flatMap_append,
      List.flatMap_map, renderLine, printHighlight_eq]
    rfl
  · simp
  · intro tokens h
    simp only [List.mem_append, List.mem_map] at h
    rcases h with (⟨r, _, h⟩ | ⟨r, _, h⟩) | ⟨r, _, h⟩ <;> rw [← h] <;> simp
  · intro row col
    fin_cases row <;> fin_cases col <;> exact ⟨rfl, rfl, rfl⟩

end Chess
